import Mathlib

/-!
Verification of the catmapper repository: a shallow embedding of the single
source function category_mapping from src/__init__.py, together with proofs
about the claims of the specification.

The embedding models the dynamic Python values the function manipulates as
the inductive type PyVal, and models each fallible Python operation as a
function into Except PyErr.  Numbers are embedded as rationals: the numeric
literals appearing in the repository (1.3, 2, 3.1, ...) are decimal values
whose comparisons in Python agree with rational comparisons.
-/

/-- The Python exception kinds that the operations used by category_mapping
can raise. -/
inductive PyErr where
  | typeError
  | indexError
  | valueError
  deriving DecidableEq, Repr

/-- A dynamic Python value: a string, a number (embedded as a rational),
a list, or a tuple. -/
inductive PyVal where
  | str (s : String)
  | num (q : ℚ)
  | list (xs : List PyVal)
  | tuple (xs : List PyVal)
  deriving Repr

mutual

/-- Python equality v == w as a boolean: structural on kinds, false across
kinds (in Python, 1 == "a" and (1, 2) == [1, 2] are both False). -/
def pyEq : PyVal → PyVal → Bool
  | .str a, .str b => a == b
  | .num a, .num b => a == b
  | .list a, .list b => pyEqSeq a b
  | .tuple a, .tuple b => pyEqSeq a b
  | _, _ => false

/-- Elementwise equality of Python sequences. -/
def pyEqSeq : List PyVal → List PyVal → Bool
  | [], [] => true
  | a :: as, b :: bs => pyEq a b && pyEqSeq as bs
  | _, _ => false

end

theorem pyEq_iff : ∀ a b : PyVal, pyEq a b = true ↔ a = b := by
  apply pyEq.induct (fun a b => pyEq a b = true ↔ a = b)
    (fun as bs => pyEqSeq as bs = true ↔ as = bs)
  · intro a b; simp [pyEq]
  · intro a b; simp [pyEq]
  · intro a b h; simpa [pyEq] using h
  · intro a b h; simpa [pyEq] using h
  · intro t x h1 h2 h3 h4
    cases t <;> cases x <;>
      first
      | exact (h1 _ _ rfl rfl).elim
      | exact (h2 _ _ rfl rfl).elim
      | exact (h3 _ _ rfl rfl).elim
      | exact (h4 _ _ rfl rfl).elim
      | simp [pyEq]
  · simp [pyEqSeq]
  · intro a as b bs h1 h2; simp [pyEqSeq, h1, h2]
  · intro t x h1 h2
    cases t <;> cases x <;>
      first
      | exact (h1 rfl rfl).elim
      | exact (h2 _ _ _ _ rfl rfl).elim
      | simp [pyEqSeq]

instance : DecidableEq PyVal := fun a b => decidable_of_iff _ (pyEq_iff a b)

mutual

/-- Python comparison a < b.  Numbers compare numerically, strings
lexicographically, lists with lists and tuples with tuples elementwise;
any other combination of kinds raises TypeError, exactly as in CPython. -/
def pyLt : PyVal → PyVal → Except PyErr Bool
  | .num a, .num b => .ok (decide (a < b))
  | .str a, .str b => .ok (decide (a < b))
  | .list a, .list b => pyLtSeq a b
  | .tuple a, .tuple b => pyLtSeq a b
  | _, _ => .error .typeError

/-- Python sequence comparison: skip equal heads, then compare the first
differing elements; a proper prefix is smaller. -/
def pyLtSeq : List PyVal → List PyVal → Except PyErr Bool
  | [], [] => .ok false
  | [], _ :: _ => .ok true
  | _ :: _, [] => .ok false
  | a :: as, b :: bs => if a = b then pyLtSeq as bs else pyLt a b

end

/-- Python len(v): length of a string, list or tuple; TypeError on a
number. -/
def pyLen : PyVal → Except PyErr Nat
  | .str s => .ok s.length
  | .num _ => .error .typeError
  | .list xs => .ok xs.length
  | .tuple xs => .ok xs.length

/-- The Python index convention: a negative subscript counts from the end
of a sequence of length n. -/
def normIdx (k : Int) (n : Nat) : Int := if k < 0 then k + n else k

/-- Subscription of a Python sequence given as its element list: IndexError
when the normalised index is out of range. -/
def seqGet (xs : List PyVal) (k : Int) : Except PyErr PyVal :=
  if 0 ≤ normIdx k xs.length ∧ normIdx k xs.length < xs.length then
    .ok (xs.getD (normIdx k xs.length).toNat (.num 0))
  else .error .indexError

/-- Python subscript v[k] with an integer index, supporting the negative
index convention; IndexError out of range, TypeError on a number. -/
def pyIndex (v : PyVal) (k : Int) : Except PyErr PyVal :=
  match v with
  | .num _ => .error .typeError
  | .str s =>
      if 0 ≤ normIdx k s.length ∧ normIdx k s.length < s.length then
        .ok (.str (String.mk [s.data.getD (normIdx k s.length).toNat ' ']))
      else .error .indexError
  | .list xs => seqGet xs k
  | .tuple xs => seqGet xs k

/-- Python iteration over a value: lists and tuples yield their elements,
a string yields its characters as one-character strings, a number raises
TypeError. -/
def pyIter : PyVal → Except PyErr (List PyVal)
  | .str s => .ok (s.data.map (fun c => .str (String.mk [c])))
  | .num _ => .error .typeError
  | .list xs => .ok xs
  | .tuple xs => .ok xs

/-- Modelled from the external isiter package used by the source: it
reports whether a value is iterable, with consider_non_iter=(str, bytes,
bytearray) making strings count as non-iterable.  It returns a boolean and
raises nothing; the source discards the boolean, so only its totality is
ever relevant. -/
def isiter : PyVal → Bool
  | .list _ => true
  | .tuple _ => true
  | _ => false

/-- Python zip(*rows) materialised as a list of columns: with no rows the
result is empty, otherwise the columns run up to the shortest row. -/
def zipAll : List (List PyVal) → List (List PyVal)
  | [] => []
  | r0 :: rest =>
      (List.range ((rest.map List.length).foldl min r0.length)).map
        (fun i => (r0 :: rest).map (fun r => r.getD i (.num 0)))

/-- Equality of Except values is decidable once both components are. -/
instance {ε α : Type} [DecidableEq ε] [DecidableEq α] :
    DecidableEq (Except ε α) := fun a b =>
  match a, b with
  | .ok x, .ok y => decidable_of_iff (x = y) (by simp)
  | .error e, .error f => decidable_of_iff (e = f) (by simp)
  | .ok _, .error _ => isFalse (by simp)
  | .error _, .ok _ => isFalse (by simp)

/-- Sequencing of fallible Python evaluation: run the first computation
and feed its value on, or propagate the raised exception. -/
def exBind {α β : Type} (x : Except PyErr α) (f : α → Except PyErr β) :
    Except PyErr β :=
  match x with
  | .error e => .error e
  | .ok a => f a

@[simp] theorem exBind_ok {α β : Type} (a : α) (f : α → Except PyErr β) :
    exBind (.ok a) f = f a := rfl

@[simp] theorem exBind_error {α β : Type} (e : PyErr)
    (f : α → Except PyErr β) : exBind (.error e) f = .error e := rfl

/-- Left-to-right effectful map over a list of Python values; the first
raised exception propagates, as in a Python loop or comprehension. -/
def mapE {α : Type} (f : PyVal → Except PyErr α) :
    List PyVal → Except PyErr (List α)
  | [] => .ok []
  | x :: xs =>
      exBind (f x) (fun y => exBind (mapE f xs) (fun ys => .ok (y :: ys)))

/-- The columns of zip(*cats): iterate cats, iterate each row, zip. -/
def transposeCols (cats : PyVal) : Except PyErr (List (List PyVal)) :=
  exBind (pyIter cats) (fun rows =>
    exBind (mapE pyIter rows) (fun rowsL => .ok (zipAll rowsL)))

/-- The source expression [list(x) for x in zip(*cats)]: transpose cats and
turn each column into a list. -/
def pyTranspose (cats : PyVal) : Except PyErr PyVal :=
  exBind (transposeCols cats) (fun cols => .ok (.list (cols.map .list)))

/-- The key function lambda x: x[-1] of the sort step. -/
def keyLast (x : PyVal) : Except PyErr PyVal := pyIndex x (-1)

/-- Pair each element with its sort key, computed left to right, as the
CPython sort does before comparing. -/
def keyedE (key : PyVal → Except PyErr PyVal) :
    List PyVal → Except PyErr (List (PyVal × PyVal))
  | [] => .ok []
  | x :: xs =>
      exBind (key x) (fun k =>
        exBind (keyedE key xs) (fun rest => .ok ((x, k) :: rest)))

/-- Insert a keyed element into an already sorted keyed list, after any
element with an equal key: the placement a stable sort gives it.  Each key
comparison may raise TypeError. -/
def insKeyed (p : PyVal × PyVal) :
    List (PyVal × PyVal) → Except PyErr (List (PyVal × PyVal))
  | [] => .ok [p]
  | q :: qs =>
      exBind (pyLt p.2 q.2) (fun b =>
        if b then .ok (p :: q :: qs)
        else exBind (insKeyed p qs) (fun r => .ok (q :: r)))

/-- Stable insertion sort of a keyed list, processing elements left to
right.  Python sorted is specified to be a stable sort, and a stable sort
by a key is unique, so this models sorted(cats, key=...) whenever all keys
are mutually comparable; when a comparison raises, the TypeError
propagates, as in the source (the tables the source handles have either
fully comparable keys or exactly two rows, where both models perform the
single possible comparison). -/
def sortKeyedAux (acc : List (PyVal × PyVal)) :
    List (PyVal × PyVal) → Except PyErr (List (PyVal × PyVal))
  | [] => .ok acc
  | p :: ps => exBind (insKeyed p acc) (fun acc2 => sortKeyedAux acc2 ps)

/-- sorted(cats, key=lambda x: x[-1]): iterate, decorate with keys, then
stable-sort by key; returns a new Python list. -/
def trySort (cats : PyVal) : Except PyErr PyVal :=
  exBind (pyIter cats) (fun xs =>
    exBind (keyedE keyLast xs) (fun keyed =>
      exBind (sortKeyedAux [] keyed) (fun sortedK =>
        .ok (.list (sortedK.map Prod.fst)))))

/-- The guarded expression of the first try block:
len(cats[0]) == 2 and isiter(cats, consider_non_iter=(str, bytes,
bytearray)).  Its boolean result is discarded by the source; only the
exceptions it can raise matter. -/
def tryFirst (cats : PyVal) : Except PyErr Bool :=
  exBind (pyIndex cats 0) (fun c0 =>
    exBind (pyLen c0) (fun n => .ok (n == 2 && isiter cats)))

/-- The first try/except TypeError block: on TypeError replace cats with
[list(x) for x in zip(*cats)]; any other exception propagates. -/
def firstBlock (cats : PyVal) : Except PyErr PyVal :=
  match tryFirst cats with
  | .ok _ => .ok cats
  | .error .typeError => pyTranspose cats
  | .error e => .error e

/-- The second try/except TypeError block: sort by the last component; on
TypeError transpose first and sort again. -/
def secondBlock (cats : PyVal) : Except PyErr PyVal :=
  match trySort cats with
  | .ok r => .ok r
  | .error .typeError => exBind (pyTranspose cats) (fun c => trySort c)
  | .error e => .error e

/-- The destructuring cat0, cat1 = [list(x) for x in zip(*cats)]: ValueError
unless the transposition has exactly two rows. -/
def unzipTwo (cats : PyVal) : Except PyErr (List PyVal × List PyVal) :=
  exBind (transposeCols cats) (fun cols =>
    match cols with
    | [a, b] => .ok (a, b)
    | _ => .error .valueError)

/-- The loop of bisect.bisect (= bisect_right): binary search keeping lo
and hi, comparing x < a[mid]; comparisons may raise TypeError.  The first
argument bounds the number of passes: every pass shrinks hi - lo by at
least one, so starting the loop with fuel = hi - lo runs it to completion
exactly as the Python while loop does. -/
def bisectLoop (a : List PyVal) (x : PyVal) : Nat → Nat → Nat → Except PyErr Nat
  | 0, lo, _ => .ok lo
  | fuel + 1, lo, hi =>
    if lo < hi then
      exBind (pyLt x (a.getD ((lo + hi) / 2) (.num 0))) (fun b =>
        if b then bisectLoop a x fuel lo ((lo + hi) / 2)
        else bisectLoop a x fuel ((lo + hi) / 2 + 1) hi)
    else .ok lo

/-- bisect.bisect(a, x) over a whole Python list. -/
def pyBisect (a : List PyVal) (x : PyVal) : Except PyErr Nat :=
  bisectLoop a x a.length 0 a.length

/-- Python list subscription with the nonnegative index bisect returns:
cat0[idx], IndexError when the index is past the end. -/
def pyGetNat (l : List PyVal) (i : Nat) : Except PyErr PyVal :=
  if i < l.length then .ok (l.getD i (.num 0)) else .error .indexError

/-- The body of the final comprehension for one element i:
(i, cat0[bisect(cat1, i[1])]), evaluating i[1], then the bisection, then
the label lookup. -/
def lookupFun (cat0 cat1 : List PyVal) (i : PyVal) :
    Except PyErr (PyVal × PyVal) :=
  exBind (pyIndex i 1) (fun v =>
    exBind (pyBisect cat1 v) (fun idx =>
      exBind (pyGetNat cat0 idx) (fun lbl => .ok (i, lbl))))

/-- The final list comprehension, left to right, first exception wins. -/
def mapComp (f : PyVal → Except PyErr (PyVal × PyVal)) :
    List PyVal → Except PyErr (List (PyVal × PyVal))
  | [] => .ok []
  | i :: rest =>
      exBind (f i) (fun r =>
        exBind (mapComp f rest) (fun rs => .ok (r :: rs)))

/-- The source function category_mapping(iterable, /, cats): the first
try/except block, the sorting try/except block, the destructuring into
cat0 and cat1, and the bisect-based comprehension. -/
def category_mapping (iterable : List PyVal) (cats : PyVal) :
    Except PyErr (List (PyVal × PyVal)) :=
  exBind (firstBlock cats) (fun cats1 =>
    exBind (secondBlock cats1) (fun cats2 =>
      exBind (unzipTwo cats2) (fun cols =>
        mapComp (lookupFun cols.1 cols.2) iterable)))

/-- The variant of category_mapping with the first try/except block
removed, used to state that the first block is dead dispatch code for
every table whose first element has a length. -/
def category_mapping_nofirst (iterable : List PyVal) (cats : PyVal) :
    Except PyErr (List (PyVal × PyVal)) :=
  exBind (secondBlock cats) (fun cats2 =>
    exBind (unzipTwo cats2) (fun cols =>
      mapComp (lookupFun cols.1 cols.2) iterable))

/-- Encoding of one Shape B category: the Python pair (label, threshold). -/
def encPairB (p : String × ℚ) : PyVal := .tuple [.str p.1, .num p.2]

/-- Encoding of a Shape B table: a Python list of (label, threshold)
pairs. -/
def encTableB (pairs : List (String × ℚ)) : PyVal := .list (pairs.map encPairB)

/-- Encoding of a Shape A table: the Python list of the two parallel rows
[labels, thresholds]. -/
def encTableA (labels : List String) (ts : List ℚ) : PyVal :=
  .list [.list (labels.map PyVal.str), .list (ts.map PyVal.num)]

/-- Encoding of one input element: the Python pair (identity, value). -/
def encElem (s : String) (v : ℚ) : PyVal := .tuple [.str s, .num v]


/-- Pure stable insertion by threshold: the inserted pair passes every pair
whose threshold is smaller than or equal to its own. -/
def insertBy {α : Type} (p : α × ℚ) : List (α × ℚ) → List (α × ℚ)
  | [] => [p]
  | q :: qs => if p.2 < q.2 then p :: q :: qs else q :: insertBy p qs

/-- Pure stable insertion sort by threshold with an accumulator, mirroring
sortKeyedAux on fully numeric keys. -/
def sortByAux {α : Type} (acc : List (α × ℚ)) : List (α × ℚ) → List (α × ℚ)
  | [] => acc
  | p :: ps => sortByAux (insertBy p acc) ps

/-- The value of sorted(cats, key=lambda x: x[-1]) on a table of
(payload, threshold) rows whose keys are all numbers. -/
def sortPairs {α : Type} (l : List (α × ℚ)) : List (α × ℚ) := sortByAux [] l

/-- Encoding of one category row produced by transposing a Shape A table:
the Python list [label, threshold]. -/
def encPairA (p : String × ℚ) : PyVal := .list [.str p.1, .num p.2]

theorem keyLast_tuple2 (a b : PyVal) : keyLast (.tuple [a, b]) = .ok b := rfl

theorem keyLast_list2 (a b : PyVal) : keyLast (.list [a, b]) = .ok b := rfl

theorem getD_last (xs : List PyVal) (h : xs ≠ []) (d : PyVal) :
    xs.getD (xs.length - 1) d = xs.getLast h := by
  induction xs with
  | nil => exact absurd rfl h
  | cons a t ih =>
      cases t with
      | nil => rfl
      | cons b t2 =>
          have h2 : b :: t2 ≠ [] := by simp
          rw [List.getLast_cons h2]
          have hl : (a :: b :: t2).length - 1 = (b :: t2).length - 1 + 1 := by
            simp
          rw [hl, List.getD_cons_succ, ih h2]

theorem keyLast_list_last (xs : List PyVal) (h : xs ≠ []) :
    keyLast (.list xs) = .ok (xs.getLast h) := by
  have hlen : 0 < xs.length := List.length_pos.mpr h
  have hcond : 0 ≤ normIdx (-1) xs.length ∧ normIdx (-1) xs.length < xs.length := by
    simp only [normIdx]
    norm_num
    omega
  have htn : (normIdx (-1) xs.length).toNat = xs.length - 1 := by
    simp only [normIdx]
    norm_num
    omega
  show seqGet xs (-1) = .ok (xs.getLast h)
  rw [seqGet, if_pos hcond, htn, getD_last xs h]

theorem insKeyed_num (x : PyVal) (a : ℚ) (l : List (PyVal × ℚ)) :
    insKeyed (x, .num a) (l.map (fun r => (r.1, PyVal.num r.2))) =
      .ok ((insertBy (x, a) l).map (fun r => (r.1, PyVal.num r.2))) := by
  induction l with
  | nil => rfl
  | cons q qs ih =>
      simp only [List.map_cons, insKeyed, insertBy, pyLt]
      by_cases h : a < q.2
      · simp [h]
      · simp [h, ih]

theorem sortKeyedAux_num (l : List (PyVal × ℚ)) :
    ∀ acc : List (PyVal × ℚ),
      sortKeyedAux (acc.map (fun r => (r.1, PyVal.num r.2)))
          (l.map (fun r => (r.1, PyVal.num r.2))) =
        .ok ((sortByAux acc l).map (fun r => (r.1, PyVal.num r.2))) := by
  induction l with
  | nil => intro acc; rfl
  | cons p ps ih =>
      intro acc
      simp only [List.map_cons, sortKeyedAux, sortByAux]
      rw [insKeyed_num p.1 p.2 acc]
      exact ih (insertBy p acc)

theorem keyedE_enc (e : String × ℚ → PyVal)
    (hk : ∀ p, keyLast (e p) = .ok (.num p.2)) (pairs : List (String × ℚ)) :
    keyedE keyLast (pairs.map e) =
      .ok (pairs.map (fun p => (e p, PyVal.num p.2))) := by
  induction pairs with
  | nil => rfl
  | cons p ps ih => simp only [List.map_cons, keyedE, hk p, ih, exBind_ok]

theorem insertBy_mapF {α β : Type} (F : α × ℚ → β × ℚ)
    (hF : ∀ p, (F p).2 = p.2) (p : α × ℚ) (l : List (α × ℚ)) :
    insertBy (F p) (l.map F) = (insertBy p l).map F := by
  induction l with
  | nil => rfl
  | cons q qs ih =>
      simp only [List.map_cons, insertBy, hF]
      by_cases h : p.2 < q.2
      · simp [h]
      · simp [h, ih]

theorem sortByAux_mapF {α β : Type} (F : α × ℚ → β × ℚ)
    (hF : ∀ p, (F p).2 = p.2) (l : List (α × ℚ)) :
    ∀ acc : List (α × ℚ),
      sortByAux (acc.map F) (l.map F) = (sortByAux acc l).map F := by
  induction l with
  | nil => intro acc; rfl
  | cons p ps ih =>
      intro acc
      simp only [List.map_cons, sortByAux]
      rw [insertBy_mapF F hF]
      exact ih (insertBy p acc)

theorem insertBy_perm {α : Type} (p : α × ℚ) (l : List (α × ℚ)) :
    List.Perm (insertBy p l) (p :: l) := by
  induction l with
  | nil => rfl
  | cons q qs ih =>
      simp only [insertBy]
      by_cases h : p.2 < q.2
      · simp [h]
      · rw [if_neg h]
        exact (ih.cons q).trans (List.Perm.swap p q qs)

theorem sortByAux_perm {α : Type} (l : List (α × ℚ)) :
    ∀ acc : List (α × ℚ), List.Perm (sortByAux acc l) (acc ++ l) := by
  induction l with
  | nil => intro acc; simp [sortByAux]
  | cons p ps ih =>
      intro acc
      simp only [sortByAux]
      refine (ih (insertBy p acc)).trans ?_
      refine (((insertBy_perm p acc).append_right ps).trans ?_)
      exact List.perm_middle.symm

theorem sortPairs_perm {α : Type} (l : List (α × ℚ)) :
    List.Perm (sortPairs l) l :=
  sortByAux_perm l []

theorem sortPairs_ne_nil {α : Type} (l : List (α × ℚ)) (h : l ≠ []) :
    sortPairs l ≠ [] := by
  intro hc
  have hp := sortPairs_perm l
  rw [hc] at hp
  exact h (hp.nil_eq).symm

theorem foldl_min_const (n : Nat) (ls : List Nat) (h : ∀ m ∈ ls, m = n) :
    ls.foldl min n = n := by
  induction ls with
  | nil => rfl
  | cons m ms ih =>
      rw [List.foldl_cons, h m (by simp), min_self]
      exact ih (fun x hx => h x (by simp [hx]))

theorem zipAll_pairsRow (pairs : List (String × ℚ)) (h : pairs ≠ []) :
    zipAll (pairs.map (fun p => [PyVal.str p.1, PyVal.num p.2])) =
      [pairs.map (fun p => PyVal.str p.1), pairs.map (fun p => PyVal.num p.2)] := by
  cases pairs with
  | nil => exact absurd rfl h
  | cons p ps =>
      simp only [List.map_cons, zipAll]
      have hmin : ((ps.map (fun p => [PyVal.str p.1, PyVal.num p.2])).map
          List.length).foldl min ([PyVal.str p.1, PyVal.num p.2]).length = 2 := by
        apply foldl_min_const
        intro m hm
        simp only [List.map_map, List.mem_map] at hm
        obtain ⟨x, _, rfl⟩ := hm
        rfl
      rw [hmin]
      show List.map _ [0, 1] = _
      simp only [List.map_cons, List.map_nil, List.map_map]
      rfl

theorem range_two_cols (xs : List PyVal) :
    ∀ ys : List PyVal, xs.length = ys.length →
      (List.range xs.length).map
          (fun i => [xs.getD i (.num 0), ys.getD i (.num 0)]) =
        (xs.zip ys).map (fun p => [p.1, p.2]) := by
  induction xs with
  | nil => intro ys h; simp
  | cons a xs2 ih =>
      intro ys h
      cases ys with
      | nil => simp at h
      | cons b ys2 =>
          have h2 : xs2.length = ys2.length := by simpa using h
          simp only [List.length_cons, List.range_succ_eq_map, List.map_cons,
            List.map_map, List.zip_cons_cons, List.getD_cons_zero]
          congr 1
          rw [← ih ys2 h2]
          apply List.map_congr_left
          intro i hi
          simp [List.getD_cons_succ]

theorem zipAll_two (xs ys : List PyVal) (h : xs.length = ys.length) :
    zipAll [xs, ys] = (xs.zip ys).map (fun p => [p.1, p.2]) := by
  have hmin : ([ys].map List.length).foldl min xs.length = xs.length := by
    simp only [List.map_cons, List.map_nil, List.foldl_cons, List.foldl_nil]
    rw [h, min_self]
  simp only [zipAll, hmin]
  rw [← range_two_cols xs ys h]
  apply List.map_congr_left
  intro i hi
  simp

theorem mapE_iter_enc (e : String × ℚ → PyVal)
    (hi : ∀ p, pyIter (e p) = .ok [.str p.1, .num p.2])
    (pairs : List (String × ℚ)) :
    mapE pyIter (pairs.map e) =
      .ok (pairs.map (fun p => [PyVal.str p.1, PyVal.num p.2])) := by
  induction pairs with
  | nil => rfl
  | cons p ps ih => simp only [List.map_cons, mapE, hi p, ih, exBind_ok]

theorem trySort_enc (e : String × ℚ → PyVal)
    (hk : ∀ p, keyLast (e p) = .ok (.num p.2)) (pairs : List (String × ℚ)) :
    trySort (.list (pairs.map e)) = .ok (.list ((sortPairs pairs).map e)) := by
  have h1 : pairs.map (fun p => (e p, PyVal.num p.2)) =
      (pairs.map (fun p : String × ℚ => (e p, p.2))).map
        (fun r => (r.1, PyVal.num r.2)) := by
    simp [List.map_map]
  have h3 := sortKeyedAux_num (pairs.map (fun p : String × ℚ => (e p, p.2))) []
  simp only [List.map_nil] at h3
  have h4 := sortByAux_mapF (fun q : String × ℚ => (e q, q.2)) (fun p => rfl)
    pairs []
  simp only [List.map_nil] at h4
  simp only [trySort, pyIter, exBind_ok, keyedE_enc e hk, h1, h3, h4]
  simp [sortPairs, List.map_map, Function.comp]

theorem transposeCols_enc (e : String × ℚ → PyVal)
    (hi : ∀ p, pyIter (e p) = .ok [.str p.1, .num p.2])
    (pairs : List (String × ℚ)) (h : pairs ≠ []) :
    transposeCols (.list (pairs.map e)) =
      .ok [pairs.map (fun p => PyVal.str p.1),
        pairs.map (fun p => PyVal.num p.2)] := by
  simp only [transposeCols, pyIter, exBind_ok, mapE_iter_enc e hi,
    zipAll_pairsRow pairs h]

theorem unzipTwo_enc (e : String × ℚ → PyVal)
    (hi : ∀ p, pyIter (e p) = .ok [.str p.1, .num p.2])
    (pairs : List (String × ℚ)) (h : pairs ≠ []) :
    unzipTwo (.list (pairs.map e)) =
      .ok (pairs.map (fun p => PyVal.str p.1),
        pairs.map (fun p => PyVal.num p.2)) := by
  simp only [unzipTwo, transposeCols_enc e hi pairs h, exBind_ok]

theorem firstBlock_encB (p0 : String × ℚ) (ps : List (String × ℚ)) :
    firstBlock (encTableB (p0 :: ps)) = .ok (encTableB (p0 :: ps)) := by
  have h0 : pyIndex (encTableB (p0 :: ps)) 0 = .ok (encPairB p0) := by
    simp only [encTableB, List.map_cons, pyIndex, seqGet, normIdx]
    norm_num
  simp only [firstBlock, tryFirst, h0]
  rfl

theorem firstBlock_encA (labels : List String) (ts : List ℚ) :
    firstBlock (encTableA labels ts) = .ok (encTableA labels ts) := rfl

/-- The mapping phase of category_mapping on the canonical sorted columns
obtained from the category pairs: the reference point both table shapes
reduce to. -/
def runTable (pairs : List (String × ℚ)) (input : List PyVal) :
    Except PyErr (List (PyVal × PyVal)) :=
  mapComp (lookupFun ((sortPairs pairs).map (fun p => PyVal.str p.1))
    ((sortPairs pairs).map (fun p => PyVal.num p.2))) input

theorem bridgeB (pairs : List (String × ℚ)) (h : pairs ≠ [])
    (input : List PyVal) :
    category_mapping input (encTableB pairs) = runTable pairs input := by
  obtain ⟨p0, ps, rfl⟩ : ∃ p0 ps, pairs = p0 :: ps := by
    cases pairs with
    | nil => exact absurd rfl h
    | cons a l => exact ⟨a, l, rfl⟩
  have hsort : trySort (encTableB (p0 :: ps)) =
      .ok (.list ((sortPairs (p0 :: ps)).map encPairB)) :=
    trySort_enc encPairB (fun p => rfl) (p0 :: ps)
  have hunzip : unzipTwo (.list ((sortPairs (p0 :: ps)).map encPairB)) =
      .ok ((sortPairs (p0 :: ps)).map (fun p => PyVal.str p.1),
        (sortPairs (p0 :: ps)).map (fun p => PyVal.num p.2)) :=
    unzipTwo_enc encPairB (fun p => rfl) (sortPairs (p0 :: ps))
      (sortPairs_ne_nil _ (by simp))
  simp only [category_mapping, firstBlock_encB p0 ps, exBind_ok, secondBlock,
    hsort, hunzip, runTable]

theorem trySort_encA_fail (labels : List String) (ts : List ℚ)
    (hl : labels ≠ []) (ht : ts ≠ []) :
    trySort (encTableA labels ts) = .error .typeError := by
  have hlm : labels.map PyVal.str ≠ [] := by simpa using hl
  have htm : ts.map PyVal.num ≠ [] := by simpa using ht
  have h1 := keyLast_list_last (labels.map PyVal.str) hlm
  have h2 := keyLast_list_last (ts.map PyVal.num) htm
  obtain ⟨s, hs⟩ : ∃ s, (labels.map PyVal.str).getLast hlm = .str s := by
    have hmem := List.getLast_mem hlm
    obtain ⟨x, _, hx⟩ := List.mem_map.mp hmem
    exact ⟨x, hx.symm⟩
  obtain ⟨t, hts⟩ : ∃ t, (ts.map PyVal.num).getLast htm = .num t := by
    have hmem := List.getLast_mem htm
    obtain ⟨x, _, hx⟩ := List.mem_map.mp hmem
    exact ⟨x, hx.symm⟩
  rw [hs] at h1
  rw [hts] at h2
  simp only [trySort, encTableA, pyIter, exBind_ok, keyedE, h1, h2,
    sortKeyedAux, insKeyed, exBind_ok]
  rfl

theorem pyTranspose_encA (labels : List String) (ts : List ℚ)
    (hlen : labels.length = ts.length) :
    pyTranspose (encTableA labels ts) =
      .ok (.list ((labels.zip ts).map encPairA)) := by
  have hzip : zipAll [labels.map PyVal.str, ts.map PyVal.num] =
      ((labels.map PyVal.str).zip (ts.map PyVal.num)).map
        (fun p => [p.1, p.2]) :=
    zipAll_two _ _ (by simp [hlen])
  simp only [pyTranspose, transposeCols, encTableA, pyIter, exBind_ok, mapE,
    exBind_ok, hzip]
  rw [List.zip_map]
  simp [List.map_map, encPairA, Function.comp]

theorem bridgeA (labels : List String) (ts : List ℚ)
    (hlen : labels.length = ts.length) (hl : labels ≠ [])
    (input : List PyVal) :
    category_mapping input (encTableA labels ts) =
      runTable (labels.zip ts) input := by
  have ht : ts ≠ [] := by
    intro hc
    rw [hc] at hlen
    simp only [List.length_nil] at hlen
    exact hl (List.length_eq_zero.mp hlen)
  have hzip_ne : labels.zip ts ≠ [] := by
    have h1 : 0 < labels.length := List.length_pos.mpr hl
    intro hc
    have h2 := congrArg List.length hc
    rw [List.length_zip] at h2
    simp only [List.length_nil] at h2
    omega
  have hfail := trySort_encA_fail labels ts hl ht
  have htrans := pyTranspose_encA labels ts hlen
  have hsort : trySort (.list ((labels.zip ts).map encPairA)) =
      .ok (.list ((sortPairs (labels.zip ts)).map encPairA)) :=
    trySort_enc encPairA (fun p => rfl) _
  have hunzip : unzipTwo (.list ((sortPairs (labels.zip ts)).map encPairA)) =
      .ok ((sortPairs (labels.zip ts)).map (fun p => PyVal.str p.1),
        (sortPairs (labels.zip ts)).map (fun p => PyVal.num p.2)) :=
    unzipTwo_enc encPairA (fun p => rfl) _ (sortPairs_ne_nil _ hzip_ne)
  simp only [category_mapping, firstBlock_encA, exBind_ok, secondBlock, hfail,
    htrans, hsort, hunzip, runTable]

theorem getD_map_num (qs : List ℚ) (i : Nat) :
    (qs.map PyVal.num).getD i (.num 0) = .num (qs.getD i 0) := by
  by_cases h : i < qs.length
  · rw [List.getD_eq_getElem _ _ (by simpa using h), List.getD_eq_getElem _ _ h]
    simp
  · rw [List.getD_eq_default _ _ (by simpa using Nat.le_of_not_lt h),
      List.getD_eq_default _ _ (by simpa using Nat.le_of_not_lt h)]

theorem countP_split (p : ℚ → Bool) (qs : List ℚ) :
    ∀ lo, lo ≤ qs.length →
      (∀ j, j < lo → p (qs.getD j 0) = true) →
      (∀ j, lo ≤ j → j < qs.length → p (qs.getD j 0) = false) →
      qs.countP p = lo := by
  induction qs with
  | nil =>
      intro lo h _ _
      simp only [List.length_nil, Nat.le_zero] at h
      simp [h]
  | cons q rest ih =>
      intro lo hlo hpre hsuf
      cases lo with
      | zero =>
          rw [List.countP_eq_zero.mpr]
          intro x hx
          obtain ⟨n, hn, hget⟩ := List.mem_iff_getElem.mp hx
          have := hsuf n (Nat.zero_le n) hn
          rw [List.getD_eq_getElem _ _ hn, hget] at this
          simp [this]
      | succ k =>
          have hq : p q = true := by
            have := hpre 0 (Nat.succ_pos k)
            simpa using this
          rw [List.countP_cons_of_pos _ _ hq]
          have hk := ih k (by simpa using hlo)
            (fun j hj => by
              have := hpre (j + 1) (by omega)
              simpa using this)
            (fun j hj1 hj2 => by
              have := hsuf (j + 1) (by omega) (by simpa using hj2)
              simpa using this)
          omega

theorem sorted_getD_mono (qs : List ℚ) (hs : qs.Pairwise (· ≤ ·))
    (i j : Nat) (hij : i ≤ j) (hj : j < qs.length) :
    qs.getD i 0 ≤ qs.getD j 0 := by
  rcases Nat.lt_or_ge i j with h | h
  · rw [List.getD_eq_getElem _ _ (by omega), List.getD_eq_getElem _ _ hj]
    exact List.pairwise_iff_getElem.mp hs i j (by omega) hj h
  · have : i = j := by omega
    rw [this]

theorem bisectLoop_sorted (qs : List ℚ) (v : ℚ)
    (hs : qs.Pairwise (· ≤ ·)) :
    ∀ fuel lo hi, hi ≤ qs.length → lo ≤ hi → hi - lo ≤ fuel →
      (∀ j, j < lo → qs.getD j 0 ≤ v) →
      (∀ j, hi ≤ j → j < qs.length → v < qs.getD j 0) →
      bisectLoop (qs.map PyVal.num) (.num v) fuel lo hi =
        .ok (qs.countP (fun q => decide (q ≤ v))) := by
  intro fuel
  induction fuel with
  | zero =>
      intro lo hi hhi hlo hfuel hpre hsuf
      have hlh : lo = hi := by omega
      subst hlh
      have := countP_split (fun q => decide (q ≤ v)) qs lo (by omega)
        (fun j hj => by simpa using hpre j hj)
        (fun j hj1 hj2 => by
          simpa [decide_eq_false_iff_not, not_le] using hsuf j hj1 hj2)
      rw [bisectLoop, this]
  | succ fuel ih =>
      intro lo hi hhi hlo hfuel hpre hsuf
      by_cases hlh : lo < hi
      · rw [bisectLoop, if_pos hlh, getD_map_num]
        have hmid1 : (lo + hi) / 2 < hi := by omega
        have hmid2 : lo ≤ (lo + hi) / 2 := by omega
        simp only [pyLt, exBind_ok]
        by_cases hv : v < qs.getD ((lo + hi) / 2) 0
        · rw [decide_eq_true hv, if_pos rfl]
          exact ih lo ((lo + hi) / 2) (by omega) (by omega) (by omega) hpre
            (fun j hj1 hj2 =>
              lt_of_lt_of_le hv (sorted_getD_mono qs hs _ j hj1 hj2))
        · rw [decide_eq_false hv]
          simp only [Bool.false_eq_true, if_false]
          exact ih ((lo + hi) / 2 + 1) hi hhi (by omega) (by omega)
            (fun j hj => by
              have hle : qs.getD j 0 ≤ qs.getD ((lo + hi) / 2) 0 :=
                sorted_getD_mono qs hs j _ (by omega) (by omega)
              exact hle.trans (not_lt.mp hv))
            hsuf
      · have hlh2 : lo = hi := by omega
        subst hlh2
        have := countP_split (fun q => decide (q ≤ v)) qs lo (by omega)
          (fun j hj => by simpa using hpre j hj)
          (fun j hj1 hj2 => by
            simpa [decide_eq_false_iff_not, not_le] using hsuf j hj1 hj2)
        rw [bisectLoop, if_neg hlh, this]

theorem pyBisect_sorted (qs : List ℚ) (v : ℚ) (hs : qs.Pairwise (· ≤ ·)) :
    pyBisect (qs.map PyVal.num) (.num v) =
      .ok (qs.countP (fun q => decide (q ≤ v))) := by
  have h := bisectLoop_sorted qs v hs qs.length 0 qs.length (le_refl _)
    (Nat.zero_le _) (by omega) (fun j hj => absurd hj (Nat.not_lt_zero j))
    (fun j hj1 hj2 => absurd (lt_of_le_of_lt hj1 hj2) (lt_irrefl _))
  rw [pyBisect, List.length_map]
  exact h

theorem insertBy_sorted {α : Type} (p : α × ℚ) (l : List (α × ℚ))
    (hs : l.Pairwise (fun a b => a.2 ≤ b.2)) :
    (insertBy p l).Pairwise (fun a b => a.2 ≤ b.2) := by
  induction l with
  | nil => simp [insertBy]
  | cons q qs ih =>
      obtain ⟨hq, hqs⟩ := List.pairwise_cons.mp hs
      simp only [insertBy]
      by_cases h : p.2 < q.2
      · rw [if_pos h]
        apply List.pairwise_cons.mpr
        refine ⟨?_, hs⟩
        intro x hx
        rcases List.mem_cons.mp hx with hx1 | hx2
        · rw [hx1]; exact le_of_lt h
        · exact (le_of_lt h).trans (hq x hx2)
      · rw [if_neg h]
        apply List.pairwise_cons.mpr
        refine ⟨?_, ih hqs⟩
        intro x hx
        rcases List.mem_cons.mp ((insertBy_perm p qs).mem_iff.mp hx) with hx1 | hx2
        · rw [hx1]; exact not_lt.mp h
        · exact hq x hx2

theorem sortByAux_sorted {α : Type} (l : List (α × ℚ)) :
    ∀ acc : List (α × ℚ), acc.Pairwise (fun a b => a.2 ≤ b.2) →
      (sortByAux acc l).Pairwise (fun a b => a.2 ≤ b.2) := by
  induction l with
  | nil => intro acc hacc; simpa [sortByAux] using hacc
  | cons p ps ih =>
      intro acc hacc
      exact ih (insertBy p acc) (insertBy_sorted p acc hacc)

theorem sortPairs_sorted {α : Type} (l : List (α × ℚ)) :
    (sortPairs l).Pairwise (fun a b => a.2 ≤ b.2) :=
  sortByAux_sorted l [] List.Pairwise.nil

theorem filter_key_nil {α : Type} (t : ℚ) (l : List (α × ℚ))
    (h : ∀ x ∈ l, t < x.2) :
    l.filter (fun r => decide (r.2 = t)) = [] := by
  rw [List.filter_eq_nil_iff]
  intro a ha
  simpa using (ne_of_gt (h a ha))

theorem insertBy_filter {α : Type} (t : ℚ) (p : α × ℚ) (l : List (α × ℚ))
    (hs : l.Pairwise (fun a b => a.2 ≤ b.2)) :
    (insertBy p l).filter (fun r => decide (r.2 = t)) =
      if p.2 = t then l.filter (fun r => decide (r.2 = t)) ++ [p]
      else l.filter (fun r => decide (r.2 = t)) := by
  induction l with
  | nil => by_cases h : p.2 = t <;> simp [insertBy, h]
  | cons q qs ih =>
      obtain ⟨hq, hqs⟩ := List.pairwise_cons.mp hs
      simp only [insertBy]
      by_cases h : p.2 < q.2
      · rw [if_pos h]
        by_cases hp : p.2 = t
        · have hnil : (q :: qs).filter (fun r => decide (r.2 = t)) = [] := by
            apply filter_key_nil
            intro x hx
            rcases List.mem_cons.mp hx with hx1 | hx2
            · rw [hx1]; exact hp ▸ h
            · exact lt_of_lt_of_le (hp ▸ h) (hq x hx2)
          simp [List.filter_cons, hp, hnil]
        · simp [List.filter_cons, hp]
      · rw [if_neg h]
        simp only [List.filter_cons]
        rw [ih hqs]
        by_cases hp : p.2 = t <;> by_cases hq2 : q.2 = t <;>
          simp [hp, hq2]

theorem sortByAux_filter {α : Type} (t : ℚ) (l : List (α × ℚ)) :
    ∀ acc : List (α × ℚ), acc.Pairwise (fun a b => a.2 ≤ b.2) →
      (sortByAux acc l).filter (fun r => decide (r.2 = t)) =
        acc.filter (fun r => decide (r.2 = t)) ++
          l.filter (fun r => decide (r.2 = t)) := by
  induction l with
  | nil => intro acc _; simp [sortByAux]
  | cons p ps ih =>
      intro acc hacc
      simp only [sortByAux]
      rw [ih _ (insertBy_sorted p acc hacc), insertBy_filter t p acc hacc]
      by_cases hp : p.2 = t <;>
        simp [hp, List.filter_cons, List.append_assoc]

theorem sortPairs_filter {α : Type} (t : ℚ) (l : List (α × ℚ)) :
    (sortPairs l).filter (fun r => decide (r.2 = t)) =
      l.filter (fun r => decide (r.2 = t)) := by
  have := sortByAux_filter t l [] List.Pairwise.nil
  simpa [sortPairs] using this

theorem pairwise_lt_of_nodup {α : Type} (l : List (α × ℚ))
    (hs : l.Pairwise (fun a b => a.2 ≤ b.2))
    (hnd : (l.map Prod.snd).Nodup) :
    l.Pairwise (fun a b => a.2 < b.2) := by
  have hne : l.Pairwise (fun a b => a.2 ≠ b.2) := List.pairwise_map.mp hnd
  exact (hs.and hne).imp (fun h => lt_of_le_of_ne h.1 h.2)

instance keyLtAntisymm {α : Type} :
    IsAntisymm (α × ℚ) (fun a b => a.2 < b.2) :=
  ⟨fun _ _ h1 h2 => (lt_asymm h1 h2).elim⟩

theorem sortPairs_congr {α : Type} (l1 l2 : List (α × ℚ))
    (hperm : List.Perm l1 l2) (hnd : (l1.map Prod.snd).Nodup) :
    sortPairs l1 = sortPairs l2 := by
  have hp : List.Perm (sortPairs l1) (sortPairs l2) :=
    (sortPairs_perm l1).trans (hperm.trans (sortPairs_perm l2).symm)
  have hnd1 : ((sortPairs l1).map Prod.snd).Nodup :=
    (((sortPairs_perm l1).map Prod.snd).nodup_iff).mpr hnd
  have hnd2 : ((sortPairs l2).map Prod.snd).Nodup :=
    (((sortPairs_perm l2).map Prod.snd).nodup_iff).mpr
      (((hperm.map Prod.snd).nodup_iff).mp hnd)
  exact List.eq_of_perm_of_sorted hp
    (pairwise_lt_of_nodup _ (sortPairs_sorted l1) hnd1)
    (pairwise_lt_of_nodup _ (sortPairs_sorted l2) hnd2)

theorem pyGetNat_map {α : Type} (l : List (α × ℚ)) (f : α × ℚ → PyVal)
    (i : Nat) :
    pyGetNat (l.map f) i =
      if h : i < l.length then .ok (f (l.get ⟨i, h⟩)) else .error .indexError := by
  by_cases h : i < l.length
  · rw [pyGetNat, if_pos (by simpa using h), dif_pos h,
      List.getD_eq_getElem _ _ (by simpa using h)]
    simp
  · rw [pyGetNat, if_neg (by simpa using h), dif_neg h]

theorem lookupFun_elem (pairs : List (String × ℚ)) (s : String) (v : ℚ) :
    lookupFun ((sortPairs pairs).map (fun p => PyVal.str p.1))
        ((sortPairs pairs).map (fun p => PyVal.num p.2)) (encElem s v) =
      if h : (sortPairs pairs).countP (fun p => decide (p.2 ≤ v)) <
          (sortPairs pairs).length
      then .ok (encElem s v,
        .str ((sortPairs pairs).get
          ⟨(sortPairs pairs).countP (fun p => decide (p.2 ≤ v)), h⟩).1)
      else .error .indexError := by
  have h1 : pyIndex (encElem s v) 1 = .ok (.num v) := rfl
  have hcol : (sortPairs pairs).map (fun p => PyVal.num p.2) =
      ((sortPairs pairs).map Prod.snd).map PyVal.num := by
    simp [List.map_map]
  have hsorted : ((sortPairs pairs).map Prod.snd).Pairwise (· ≤ ·) :=
    List.pairwise_map.mpr (sortPairs_sorted pairs)
  simp only [lookupFun, h1, exBind_ok, hcol,
    pyBisect_sorted _ v hsorted, List.countP_map]
  have hfn : ((fun q => decide (q ≤ v)) ∘ Prod.snd) =
      (fun p : String × ℚ => decide (p.2 ≤ v)) := rfl
  rw [hfn, pyGetNat_map]
  by_cases h : (sortPairs pairs).countP (fun p => decide (p.2 ≤ v)) <
      (sortPairs pairs).length
  · rw [dif_pos h, dif_pos h, exBind_ok]
  · rw [dif_neg h, dif_neg h]
    rfl

theorem sorted_get_countP {α : Type} (l : List (α × ℚ))
    (hs : l.Pairwise (fun a b => a.2 ≤ b.2)) (v : ℚ)
    (h : l.countP (fun p => decide (p.2 ≤ v)) < l.length) :
    v < (l.get ⟨l.countP (fun p => decide (p.2 ≤ v)), h⟩).2 ∧
    ∀ j (hj : j < l.countP (fun p => decide (p.2 ≤ v))),
      (l.get ⟨j, lt_trans hj h⟩).2 ≤ v := by
  induction l with
  | nil => simp at h
  | cons p rest ih =>
      obtain ⟨hp, hrest⟩ := List.pairwise_cons.mp hs
      by_cases hple : p.2 ≤ v
      · have hc : (p :: rest).countP (fun p => decide (p.2 ≤ v)) =
            rest.countP (fun p => decide (p.2 ≤ v)) + 1 :=
          List.countP_cons_of_pos _ _ (by simpa using hple)
        have hlt : rest.countP (fun p => decide (p.2 ≤ v)) < rest.length := by
          rw [hc] at h
          simpa using h
        obtain ⟨ih1, ih2⟩ := ih hrest hlt
        constructor
        · simp only [hc]
          exact ih1
        · intro j hj
          rw [hc] at hj
          cases j with
          | zero => simpa using hple
          | succ k =>
              have := ih2 k (by omega)
              simpa using this
      · have hc : (p :: rest).countP (fun p => decide (p.2 ≤ v)) = 0 := by
          rw [List.countP_cons_of_neg _ _ (by simpa using hple)]
          rw [List.countP_eq_zero]
          intro x hx
          have : v < x.2 := lt_of_lt_of_le (not_le.mp hple) (hp x hx)
          simpa using not_le.mpr this
        constructor
        · simp only [hc]
          simpa using not_le.mp hple
        · intro j hj
          rw [hc] at hj
          exact absurd hj (Nat.not_lt_zero j)

theorem sorted_get_countP_key (pairs : List (String × ℚ)) (v t : ℚ)
    (ht : t ∈ pairs.map Prod.snd) (hv : v < t)
    (hgap : ∀ p ∈ pairs, v < p.2 → t ≤ p.2) :
    ∃ h : (sortPairs pairs).countP (fun p => decide (p.2 ≤ v)) <
        (sortPairs pairs).length,
      ((sortPairs pairs).get
        ⟨(sortPairs pairs).countP (fun p => decide (p.2 ≤ v)), h⟩).2 = t ∧
      ∀ j (hj : j < (sortPairs pairs).countP (fun p => decide (p.2 ≤ v))),
        ((sortPairs pairs).get ⟨j, lt_trans hj h⟩).2 < t := by
  have hperm := sortPairs_perm pairs
  have hsor := sortPairs_sorted pairs
  obtain ⟨tp, htp_mem, htp_key⟩ : ∃ tp ∈ sortPairs pairs, tp.2 = t := by
    obtain ⟨q, hq_mem, hq_key⟩ := List.mem_map.mp ht
    exact ⟨q, hperm.mem_iff.mpr hq_mem, hq_key⟩
  have hidx : (sortPairs pairs).countP (fun p => decide (p.2 ≤ v)) <
      (sortPairs pairs).length := by
    rcases Nat.lt_or_ge ((sortPairs pairs).countP (fun p => decide (p.2 ≤ v)))
      (sortPairs pairs).length with hlt | hge
    · exact hlt
    · exfalso
      have heq : (sortPairs pairs).countP (fun p => decide (p.2 ≤ v)) =
          (sortPairs pairs).length :=
        le_antisymm (List.countP_le_length _) hge
      have hall := List.countP_eq_length.mp heq tp htp_mem
      rw [htp_key] at hall
      exact absurd (of_decide_eq_true hall) (not_le.mpr hv)
  obtain ⟨h1, h2⟩ := sorted_get_countP (sortPairs pairs) hsor v hidx
  refine ⟨hidx, ?_, ?_⟩
  · have hgi_mem : (sortPairs pairs).get
        ⟨(sortPairs pairs).countP (fun p => decide (p.2 ≤ v)), hidx⟩ ∈ pairs :=
      hperm.mem_iff.mp (List.get_mem _ _ hidx)
    have hge : t ≤ ((sortPairs pairs).get
        ⟨(sortPairs pairs).countP (fun p => decide (p.2 ≤ v)), hidx⟩).2 :=
      hgap _ hgi_mem h1
    obtain ⟨j, hj_lt, hj_eq⟩ := List.mem_iff_getElem.mp htp_mem
    have hj_eq2 : (sortPairs pairs).get ⟨j, hj_lt⟩ = tp := hj_eq
    have hj_ge : (sortPairs pairs).countP (fun p => decide (p.2 ≤ v)) ≤ j := by
      by_contra hcon
      push_neg at hcon
      have hle_v := h2 j hcon
      rw [hj_eq2, htp_key] at hle_v
      exact absurd hle_v (not_le.mpr hv)
    have hle : ((sortPairs pairs).get
        ⟨(sortPairs pairs).countP (fun p => decide (p.2 ≤ v)), hidx⟩).2 ≤ t := by
      rcases Nat.eq_or_lt_of_le hj_ge with heq | hlt
      · have hf : (⟨(sortPairs pairs).countP (fun p => decide (p.2 ≤ v)),
            hidx⟩ : Fin (sortPairs pairs).length) = ⟨j, hj_lt⟩ :=
          Fin.ext heq
        rw [hf, hj_eq2, htp_key]
      · have hpw := List.pairwise_iff_getElem.mp hsor _ j hidx hj_lt hlt
        have hjt : ((sortPairs pairs).get ⟨j, hj_lt⟩).2 = t := by
          rw [hj_eq2, htp_key]
        rw [List.get_eq_getElem] at hjt
        rw [hjt] at hpw
        exact hpw
    exact le_antisymm hle hge
  · intro j hj
    exact lt_of_le_of_lt (h2 j hj) hv

theorem filter_head_of_first {α : Type} (P : α × ℚ → Bool)
    (l : List (α × ℚ)) :
    ∀ i (hi : i < l.length), P (l.get ⟨i, hi⟩) = true →
      (∀ j (hj : j < i), P (l.get ⟨j, lt_trans hj hi⟩) = false) →
      (l.filter P).head? = some (l.get ⟨i, hi⟩) := by
  induction l with
  | nil => intro i hi; exact absurd hi (by simp)
  | cons p rest ih =>
      intro i hi hP hbefore
      cases i with
      | zero =>
          have : P p = true := hP
          simp [List.filter_cons, this]
      | succ k =>
          have hp0 : P p = false := hbefore 0 (Nat.succ_pos k)
          rw [List.filter_cons_of_neg (by simp [hp0])]
          have hk : k < rest.length := by simpa using hi
          have := ih k hk (by simpa using hP) (fun j hj => by
            have := hbefore (j + 1) (by omega)
            simpa using this)
          simpa using this

theorem key_inj_pairwise {α : Type} (l : List (α × ℚ))
    (hne : l.Pairwise (fun a b => a.2 ≠ b.2)) (a b : α × ℚ)
    (ha : a ∈ l) (hb : b ∈ l) (hk : a.2 = b.2) : a = b := by
  induction l with
  | nil => exact absurd ha (by simp)
  | cons p rest ih =>
      obtain ⟨hp, hrest⟩ := List.pairwise_cons.mp hne
      rcases List.mem_cons.mp ha with ha1 | ha2 <;>
        rcases List.mem_cons.mp hb with hb1 | hb2
      · rw [ha1, hb1]
      · rw [ha1] at hk
        exact absurd hk (hp b hb2)
      · rw [hb1] at hk
        exact absurd hk.symm (hp a ha2)
      · exact ih hrest ha2 hb2

theorem pyIndex_encB_zero (p0 : String × ℚ) (ps : List (String × ℚ)) :
    pyIndex (encTableB (p0 :: ps)) 0 = .ok (encPairB p0) := by
  simp only [encTableB, List.map_cons, pyIndex, seqGet, normIdx]
  norm_num

theorem lookupFun_fst (cat0 cat1 : List PyVal) (i : PyVal)
    (r : PyVal × PyVal) (h : lookupFun cat0 cat1 i = .ok r) : r.1 = i := by
  rw [lookupFun] at h
  cases hv : pyIndex i 1 with
  | error e => rw [hv, exBind_error] at h; exact absurd h (by simp)
  | ok v =>
      rw [hv, exBind_ok] at h
      cases hb : pyBisect cat1 v with
      | error e => rw [hb, exBind_error] at h; exact absurd h (by simp)
      | ok idx =>
          rw [hb, exBind_ok] at h
          cases hg : pyGetNat cat0 idx with
          | error e => rw [hg, exBind_error] at h; exact absurd h (by simp)
          | ok lbl =>
              rw [hg, exBind_ok] at h
              have : (i, lbl) = r := by
                simpa using h
              rw [← this]

theorem mapComp_fst (f : PyVal → Except PyErr (PyVal × PyVal)) :
    ∀ (input : List PyVal) (out : List (PyVal × PyVal)),
      mapComp f input = .ok out → (∀ i r, f i = .ok r → r.1 = i) →
      out.map Prod.fst = input := by
  intro input
  induction input with
  | nil =>
      intro out h _
      rw [mapComp] at h
      have : ([] : List (PyVal × PyVal)) = out := by simpa using h
      rw [← this]
      rfl
  | cons i rest ih =>
      intro out h hf
      rw [mapComp] at h
      cases hr : f i with
      | error e => rw [hr, exBind_error] at h; exact absurd h (by simp)
      | ok r =>
          rw [hr, exBind_ok] at h
          cases hrs : mapComp f rest with
          | error e => rw [hrs, exBind_error] at h; exact absurd h (by simp)
          | ok rs =>
              rw [hrs, exBind_ok] at h
              have hout : r :: rs = out := by simpa using h
              rw [← hout]
              simp only [List.map_cons, hf i r hr, ih rs hrs hf]

theorem runTable_exceed (pairs : List (String × ℚ))
    (input : List (String × ℚ))
    (hex : ∃ e ∈ input, ∀ p ∈ pairs, p.2 < e.2) :
    runTable pairs (input.map (fun e => encElem e.1 e.2)) =
      .error .indexError := by
  induction input with
  | nil =>
      obtain ⟨e, he, _⟩ := hex
      exact absurd he (by simp)
  | cons e rest ih =>
      simp only [List.map_cons, runTable, mapComp]
      rw [lookupFun_elem pairs e.1 e.2]
      by_cases hidx : (sortPairs pairs).countP (fun p => decide (p.2 ≤ e.2)) <
          (sortPairs pairs).length
      · rw [dif_pos hidx, exBind_ok]
        rcases hex with ⟨x, hx_mem, hx⟩
        rcases List.mem_cons.mp hx_mem with hx1 | hx2
        · exfalso
          have hall : (sortPairs pairs).countP (fun p => decide (p.2 ≤ e.2)) =
              (sortPairs pairs).length := by
            apply List.countP_eq_length.mpr
            intro p hp
            have hp_mem : p ∈ pairs := (sortPairs_perm pairs).mem_iff.mp hp
            have hlt := hx p hp_mem
            rw [hx1] at hlt
            exact decide_eq_true (le_of_lt hlt)
          omega
        · have hrest := ih ⟨x, hx2, hx⟩
          simp only [runTable] at hrest
          rw [hrest]
          rfl
      · rw [dif_neg hidx]
        rfl

/-- C1 counterexample: in the table [("a", 1), ("b", 2)] the element value 1
equals the threshold 1, whose label is "a"; the claim predicts "a", but the
code, using the rightmost bisection point, returns "b", the label of the
next higher threshold. -/
theorem C1_counterexample :
    category_mapping [encElem "e" 1] (encTableB [("a", 1), ("b", 2)]) =
        .ok [(encElem "e" 1, .str "b")] ∧
      category_mapping [encElem "e" 1] (encTableB [("a", 1), ("b", 2)]) ≠
        .ok [(encElem "e" 1, .str "a")] := by
  constructor
  · decide
  · decide

/-- C1 amended: for a table with pairwise distinct thresholds, an element
whose value is strictly below some threshold is assigned the label of the
smallest threshold STRICTLY GREATER than its value; in particular an
element whose value equals a threshold receives the label of the next
higher threshold, not of the threshold it equals. -/
theorem C1_amended_label (pairs : List (String × ℚ)) (l : String)
    (tstar : ℚ) (s : String) (v : ℚ)
    (hnd : (pairs.map Prod.snd).Nodup)
    (hmem : (l, tstar) ∈ pairs)
    (hv : v < tstar)
    (hmin : ∀ p ∈ pairs, v < p.2 → tstar ≤ p.2) :
    category_mapping [encElem s v] (encTableB pairs) =
      .ok [(encElem s v, .str l)] := by
  have hne : pairs ≠ [] := by
    intro hc
    rw [hc] at hmem
    exact absurd hmem (by simp)
  obtain ⟨hidx, hkey, _⟩ := sorted_get_countP_key pairs v tstar
    (List.mem_map.mpr ⟨(l, tstar), hmem, rfl⟩) hv hmin
  rw [bridgeB pairs hne, runTable]
  simp only [mapComp, lookupFun_elem pairs s v, dif_pos hidx, exBind_ok]
  have hgi_mem : (sortPairs pairs).get
      ⟨(sortPairs pairs).countP (fun p => decide (p.2 ≤ v)), hidx⟩ ∈ pairs :=
    (sortPairs_perm pairs).mem_iff.mp (List.get_mem _ _ hidx)
  have hgi : (sortPairs pairs).get
      ⟨(sortPairs pairs).countP (fun p => decide (p.2 ≤ v)), hidx⟩ =
      (l, tstar) :=
    key_inj_pairwise pairs (List.pairwise_map.mp hnd) _ _ hgi_mem hmem
      (by rw [hkey])
  rw [hgi]

/-- C1 witness: the amended statement at the concrete counterexample
input, where the element value 1 is strictly below the threshold 2 and
receives its label "b". -/
theorem C1_witness :
    category_mapping [encElem "e" 1] (encTableB [("a", 1), ("b", 2)]) =
      .ok [(encElem "e" 1, .str "b")] :=
  C1_amended_label [("a", 1), ("b", 2)] "b" 2 "e" 1 (by decide) (by decide)
    (by decide) (by decide)

/-- C2 counterexample: on the documented Shape A scenario the code does
not return the output claimed by the specification, because the element
("c", 1.3) whose value equals the lowest threshold is not labelled
"barato". -/
theorem C2_counterexample :
    category_mapping
        [encElem "a" (mkRat 5 2), encElem "b" (mkRat 1 2),
          encElem "c" (mkRat 13 10)]
        (encTableA ["barato", "mais ou menos", "caro"]
          [mkRat 13 10, 2, mkRat 31 10]) ≠
      .ok [(encElem "a" (mkRat 5 2), .str "caro"),
        (encElem "b" (mkRat 1 2), .str "barato"),
        (encElem "c" (mkRat 13 10), .str "barato")] := by
  decide

/-- C2 amended: on the table [["barato", "mais ou menos", "caro"],
[1.3, 2, 3.1]] and the input [("a", 2.5), ("b", 0.5), ("c", 1.3)] the code
returns caro for "a" and barato for "b" as claimed, but assigns
"mais ou menos" (the label of the next higher threshold 2), not "barato",
to the element ("c", 1.3) whose value equals the threshold 1.3. -/
theorem C2_actual_output :
    category_mapping
        [encElem "a" (mkRat 5 2), encElem "b" (mkRat 1 2),
          encElem "c" (mkRat 13 10)]
        (encTableA ["barato", "mais ou menos", "caro"]
          [mkRat 13 10, 2, mkRat 31 10]) =
      .ok [(encElem "a" (mkRat 5 2), .str "caro"),
        (encElem "b" (mkRat 1 2), .str "barato"),
        (encElem "c" (mkRat 13 10), .str "mais ou menos")] := by
  decide

/-- C3: for every nonempty Shape B table and every input containing an
element whose value strictly exceeds every threshold, category_mapping
raises an error (the IndexError of the out-of-range label lookup) instead
of returning a result. -/
theorem C3_out_of_range (pairs : List (String × ℚ))
    (input : List (String × ℚ)) (hne : pairs ≠ [])
    (hex : ∃ e ∈ input, ∀ p ∈ pairs, p.2 < e.2) :
    category_mapping (input.map (fun e => encElem e.1 e.2))
        (encTableB pairs) = .error .indexError := by
  rw [bridgeB pairs hne]
  exact runTable_exceed pairs input hex

/-- C3 witness: the value 1000 exceeds the single threshold 1.3 and the
call raises the out-of-range IndexError. -/
theorem C3_witness :
    category_mapping
        ([(("x" : String), (1000 : ℚ))].map (fun e => encElem e.1 e.2))
        (encTableB [("barato", mkRat 13 10)]) = .error .indexError :=
  C3_out_of_range [("barato", mkRat 13 10)] [("x", 1000)] (by decide)
    ⟨("x", 1000), by decide, by decide⟩

/-- C4: a Shape A table (two parallel rows of labels and thresholds) and
the Shape B table of the corresponding (label, threshold) pairs produce
identical results on every input iterable, errors included. -/
theorem C4_shape_invariance (labels : List String) (ts : List ℚ)
    (hlen : labels.length = ts.length) (input : List PyVal) :
    category_mapping input (encTableA labels ts) =
      category_mapping input (encTableB (labels.zip ts)) := by
  cases labels with
  | nil =>
      have hts : ts = [] := List.length_eq_zero.mp hlen.symm
      subst hts
      rfl
  | cons a ls =>
      cases ts with
      | nil => simp at hlen
      | cons b ts2 =>
          rw [bridgeA _ _ hlen (by simp) input, bridgeB _ (by simp) input]

/-- C4 witness: the two presentations of the single category ("x", 1)
agree on the empty input. -/
theorem C4_witness :
    category_mapping [] (encTableA ["x"] [1]) =
      category_mapping [] (encTableB (List.zip ["x"] [1])) :=
  C4_shape_invariance ["x"] [1] rfl []

/-- C5 counterexample: the tables [("p", 5), ("q", 5)] and
[("q", 5), ("p", 5)] are permutations of each other, yet on the element
value 2 the first labels it "p" and the second labels it "q": with
duplicate thresholds the output is not permutation invariant. -/
theorem C5_counterexample :
    List.Perm [(("p" : String), (5 : ℚ)), ("q", 5)] [("q", 5), ("p", 5)] ∧
      category_mapping [encElem "e" 2] (encTableB [("p", 5), ("q", 5)]) ≠
        category_mapping [encElem "e" 2] (encTableB [("q", 5), ("p", 5)]) := by
  constructor
  · decide
  · decide

/-- C5 amended: when the thresholds of the table are pairwise distinct,
every permutation of the (label, threshold) rows yields the same output
of category_mapping on every input. -/
theorem C5_permutation_invariance (pairs1 pairs2 : List (String × ℚ))
    (hperm : List.Perm pairs1 pairs2)
    (hnd : (pairs1.map Prod.snd).Nodup) (input : List PyVal) :
    category_mapping input (encTableB pairs1) =
      category_mapping input (encTableB pairs2) := by
  by_cases hne : pairs1 = []
  · subst hne
    have : pairs2 = [] := hperm.symm.eq_nil
    subst this
    rfl
  · have hne2 : pairs2 ≠ [] := by
      intro hc
      rw [hc] at hperm
      exact hne hperm.eq_nil
    rw [bridgeB pairs1 hne input, bridgeB pairs2 hne2 input, runTable,
      runTable, sortPairs_congr pairs1 pairs2 hperm hnd]

/-- C5 witness: the amended statement at a two-category table with
distinct thresholds, in both orders, on the empty input. -/
theorem C5_witness :
    category_mapping [] (encTableB [("p", 1), ("q", 2)]) =
      category_mapping [] (encTableB [("q", 2), ("p", 1)]) :=
  C5_permutation_invariance [("p", 1), ("q", 2)] [("q", 2), ("p", 1)]
    (by decide) (by decide) []

/-- C6: whenever category_mapping returns a result, mapping each output
pair to its first component gives back exactly the input list (same
length, same order, untouched elements); moreover the empty input on a
nonempty Shape B table returns the empty output. -/
theorem C6_output_structure :
    (∀ (cats : PyVal) (input : List PyVal) (out : List (PyVal × PyVal)),
      category_mapping input cats = .ok out → out.map Prod.fst = input) ∧
    (∀ pairs : List (String × ℚ), pairs ≠ [] →
      category_mapping [] (encTableB pairs) = .ok []) := by
  constructor
  · intro cats input out h
    rw [category_mapping] at h
    cases h1 : firstBlock cats with
    | error e => rw [h1, exBind_error] at h; exact absurd h (by simp)
    | ok c1 =>
        rw [h1, exBind_ok] at h
        cases h2 : secondBlock c1 with
        | error e => rw [h2, exBind_error] at h; exact absurd h (by simp)
        | ok c2 =>
            rw [h2, exBind_ok] at h
            cases h3 : unzipTwo c2 with
            | error e => rw [h3, exBind_error] at h; exact absurd h (by simp)
            | ok cols =>
                rw [h3, exBind_ok] at h
                exact mapComp_fst _ input out h (lookupFun_fst cols.1 cols.2)
  · intro pairs hne
    rw [bridgeB pairs hne, runTable]
    rfl

/-- C6 witness: a successful concrete run whose output projects back to
the input, and an empty input returning the empty output. -/
theorem C6_witness :
    ([((encElem "x" (mkRat 1 2) : PyVal), (PyVal.str "a" : PyVal))].map
        Prod.fst = [encElem "x" (mkRat 1 2)]) ∧
      category_mapping [] (encTableB [("a", 1)]) = .ok [] :=
  ⟨C6_output_structure.1 (encTableB [("a", 1)]) [encElem "x" (mkRat 1 2)]
      [(encElem "x" (mkRat 1 2), .str "a")] (by decide),
    C6_output_structure.2 [("a", 1)] (by decide)⟩

/-- C7 amended: calling category_mapping with the empty table raises the
uncaught IndexError of the subscript cats[0] on an empty list; it returns
no output, but the error is an index error, not a type or shape error. -/
theorem C7_empty_table (input : List PyVal) :
    category_mapping input (.list []) = .error .indexError := rfl

/-- C7 counterexample: on the empty table the raised error is IndexError,
which is not the TypeError that a malformed-table type/shape failure
would be. -/
theorem C7_counterexample :
    category_mapping [] (.list []) = .error .indexError ∧
      PyErr.indexError ≠ PyErr.typeError := by
  constructor
  · decide
  · decide

/-- C8: the Shape A table [[10, 20], [1.0, 2.0]] with numeric labels
raises no shape error: the label row and the threshold row are sorted as
whole rows (the rows compare by their numeric last elements, so the sort
succeeds without transposing), and the element of value 1.5 receives the
result 1.0 — a value drawn from the threshold row, not from the label row
[10, 20], and different from 20, the label of the smallest threshold 2.0
greater than or equal to 1.5. -/
theorem C8_numeric_labels :
    category_mapping [.tuple [.str "e", .num (mkRat 3 2)]]
        (.list [.list [.num 10, .num 20], .list [.num 1, .num 2]]) =
      .ok [(.tuple [.str "e", .num (mkRat 3 2)], .num 1)] ∧
    (PyVal.num 1 ≠ .num 10 ∧ PyVal.num 1 ≠ .num 20) := by
  constructor
  · decide
  · constructor
    · decide
    · decide

/-- C9: with duplicate thresholds the stable sort keeps tied categories in
the order the caller supplied, so an element falling on a duplicated
threshold t from below is labelled with the FIRST tied category of the
supplied table; consequently, as the second conjunct shows on the tables
[("x", 1), ("y", 1)] and [("y", 1), ("x", 1)], the output is not
invariant under permutations of tables containing duplicate thresholds. -/
theorem C9_stability :
    (∀ (pairs : List (String × ℚ)) (t : ℚ) (p0 : String × ℚ)
        (s : String) (v : ℚ),
      (pairs.filter (fun p => decide (p.2 = t))).head? = some p0 →
      v < t →
      (∀ p ∈ pairs, p.2 < t → p.2 < v) →
      category_mapping [encElem s v] (encTableB pairs) =
        .ok [(encElem s v, .str p0.1)]) ∧
    category_mapping [encElem "e" (mkRat 1 2)]
        (encTableB [("x", 1), ("y", 1)]) ≠
      category_mapping [encElem "e" (mkRat 1 2)]
        (encTableB [("y", 1), ("x", 1)]) := by
  constructor
  · intro pairs t p0 s v hhead hv hsmaller
    have hp0_mem_filter : p0 ∈ pairs.filter (fun p => decide (p.2 = t)) := by
      cases hF : pairs.filter (fun p => decide (p.2 = t)) with
      | nil => rw [hF] at hhead; exact absurd hhead (by simp)
      | cons q Fs =>
          rw [hF] at hhead
          have hq : q = p0 := by simpa using hhead
          rw [← hq]
          exact List.mem_cons_self q Fs
    have hp0_pairs : p0 ∈ pairs := List.mem_of_mem_filter hp0_mem_filter
    have hp0_key : p0.2 = t := by
      have := List.of_mem_filter hp0_mem_filter
      simpa using this
    have hne : pairs ≠ [] := by
      intro hc
      rw [hc] at hp0_pairs
      exact absurd hp0_pairs (by simp)
    have ht_mem : t ∈ pairs.map Prod.snd :=
      List.mem_map.mpr ⟨p0, hp0_pairs, hp0_key⟩
    have hgap : ∀ p ∈ pairs, v < p.2 → t ≤ p.2 := by
      intro p hp hvp
      by_contra hcon
      push_neg at hcon
      exact lt_asymm hvp (hsmaller p hp hcon)
    obtain ⟨hidx, hkey, hbefore⟩ :=
      sorted_get_countP_key pairs v t ht_mem hv hgap
    rw [bridgeB pairs hne, runTable]
    simp only [mapComp, lookupFun_elem pairs s v, dif_pos hidx, exBind_ok]
    have hfilter_head := filter_head_of_first (fun p => decide (p.2 = t))
      (sortPairs pairs) _ hidx (by simpa using hkey)
      (fun j hj => by simpa using (hbefore j hj).ne)
    rw [sortPairs_filter t pairs, hhead] at hfilter_head
    have hp0_get : p0 = (sortPairs pairs).get
        ⟨(sortPairs pairs).countP (fun p => decide (p.2 ≤ v)), hidx⟩ := by
      simpa using hfilter_head
    rw [← hp0_get]
  · decide

/-- C9 witness: on the duplicate-threshold table [("x", 1), ("y", 1)] the
element of value 0.5 receives the label "x" of the first tied category. -/
theorem C9_witness :
    category_mapping [encElem "e" (mkRat 1 2)]
        (encTableB [("x", 1), ("y", 1)]) =
      .ok [(encElem "e" (mkRat 1 2), .str "x")] :=
  C9_stability.1 [("x", 1), ("y", 1)] 1 ("x", 1) "e" (mkRat 1 2) (by decide)
    (by decide) (by decide)

/-- C10: for every table whose first element supports len, the first
try/except block raises nothing and leaves the table unchanged, so
category_mapping agrees exactly with its variant that omits the first
block; every Shape A table and every nonempty Shape B table has such a
first element. -/
theorem C10_first_block_dead :
    (∀ (iterable : List PyVal) (cats c0 : PyVal) (n : Nat),
      pyIndex cats 0 = .ok c0 → pyLen c0 = .ok n →
      category_mapping iterable cats =
        category_mapping_nofirst iterable cats) ∧
    (∀ (labels : List String) (ts : List ℚ), ∃ (c0 : PyVal) (n : Nat),
      pyIndex (encTableA labels ts) 0 = .ok c0 ∧ pyLen c0 = .ok n) ∧
    (∀ (p0 : String × ℚ) (ps : List (String × ℚ)), ∃ (c0 : PyVal) (n : Nat),
      pyIndex (encTableB (p0 :: ps)) 0 = .ok c0 ∧ pyLen c0 = .ok n) := by
  refine ⟨?_, ?_, ?_⟩
  · intro iterable cats c0 n h0 hlen
    have hfb : firstBlock cats = .ok cats := by
      rw [firstBlock, tryFirst, h0, exBind_ok, hlen, exBind_ok]
    rw [category_mapping, hfb, exBind_ok, category_mapping_nofirst]
  · intro labels ts
    exact ⟨.list (labels.map PyVal.str), labels.length, rfl, by simp [pyLen]⟩
  · intro p0 ps
    exact ⟨encPairB p0, 2, pyIndex_encB_zero p0 ps, rfl⟩

/-- C10 witness: on a concrete one-category Shape B table the full
function and the variant without the first block agree. -/
theorem C10_witness :
    category_mapping [] (encTableB [("a", 1)]) =
      category_mapping_nofirst [] (encTableB [("a", 1)]) :=
  C10_first_block_dead.1 [] (encTableB [("a", 1)]) (encPairB ("a", 1)) 2
    (by decide) (by decide)

/-- C7 witness: the amended statement applied to a concrete nonempty
input. -/
theorem C7_witness :
    category_mapping [encElem "a" 1] (.list []) = .error .indexError :=
  C7_empty_table [encElem "a" 1]
